import Mathlib

/-!
Shallow embedding of the lrmr worker core: the partitioner family
(`partitions/partitioner.go`), the task executor (`worker.TaskExecutor`),
and the row data model (`lrdd`).  Definitions are translated from the Go
source; machine integers are modelled as `Nat`/`Int` with explicit
`% 2^64` where Go overflow semantics matter, Go panics are modelled as an
explicit `panicked` outcome, and Go `error` values as an inductive type.
-/

namespace Lrmr

/-- Go `error` values: either a fresh `errors.New`/`fmt` error with a message,
or `errors.Wrap(err, msg)` layering a message over a cause. -/
inductive GoErr where
  | mk (msg : String) : GoErr
  | wrap (msg : String) (cause : GoErr) : GoErr
deriving DecidableEq, Repr

/-- `partitions.ErrNoOutput`: sentinel returned by `DeterminePartition` when
the row has no destination partition. -/
def ErrNoOutput : GoErr := .mk "no output"

/-- `partitions.Partition`: partition ID, elasticity flag and assignment
affinity.  The Go `map[string]string` is modelled as an association list
with unique keys (Go map semantics: assignment overwrites in place,
fresh keys are appended). -/
structure Partition where
  ID : String
  IsElastic : Bool
  AssignmentAffinity : List (String × String)
deriving DecidableEq, Repr

/-- Go map assignment `m[k] = v`: overwrites the entry for `k` in place if
present, appends otherwise. -/
def mapAssign (m : List (String × String)) (k v : String) : List (String × String) :=
  match m with
  | [] => [(k, v)]
  | (k0, v0) :: rest =>
    if k0 = k then (k, v) :: rest else (k0, v0) :: mapAssign rest k v

/-- `partitions.Context`: the task context consulted by a partitioner; it
exposes the current task's own partition ID. -/
structure Context where
  partitionID : String
deriving DecidableEq, Repr

/-- `lrdd.Row` as consumed by partitioners: only the `Key` field is ever
read by `DeterminePartition`. -/
structure LRow where
  Key : String
deriving DecidableEq, Repr

/-- The partitioner variants of `partitions/partitioner.go` as a closed
datatype: the four concrete partitioners plus the two wrappers
(`SerializablePartitioner` and `masterAssigner`).  `masterAssigner`
stores a `SerializablePartitioner` (it is built with `WrapPartitioner`). -/
inductive Partitioner where
  | hashKey : Partitioner
  | finiteKey (keySet : List String) : Partitioner
  | shuffled : Partitioner
  | preserve : Partitioner
  | serializable (inner : Partitioner) : Partitioner
  | masterAssigner (inner : Partitioner) : Partitioner
deriving DecidableEq, Repr

/-- `partitions.WrapPartitioner`. -/
def WrapPartitioner (p : Partitioner) : Partitioner := .serializable p

/-- `partitions.UnwrapPartitioner`: removes one `SerializablePartitioner`
layer, if present; any other partitioner is returned unchanged. -/
def UnwrapPartitioner (p : Partitioner) : Partitioner :=
  match p with
  | .serializable inner => inner
  | q => q

/-- `partitions.NewHashKeyPartitioner`. -/
def NewHashKeyPartitioner : Partitioner := .hashKey

/-- `partitions.NewShuffledPartitioner`. -/
def NewShuffledPartitioner : Partitioner := .shuffled

/-- `partitions.NewPreservePartitioner`. -/
def NewPreservePartitioner : Partitioner := .preserve

/-- The key-set insertion loop of `NewFiniteKeyPartitioner`: a Go
`map[string]struct{}` built by inserting each key is modelled as the
deduplicated key list (first occurrence kept). -/
def dedupKeys (keys : List String) : List String :=
  keys.foldl (fun acc k => if acc.contains k then acc else acc ++ [k]) []

/-- `partitions.NewFiniteKeyPartitioner`: builds the key set from the key
list. -/
def NewFiniteKeyPartitioner (keys : List String) : Partitioner :=
  .finiteKey (dedupKeys keys)

/-- `partitions.WithAssignmentToMaster`: wraps the partitioner with
`masterAssigner`, serialization-wrapping it first. -/
def WithAssignmentToMaster (p : Partitioner) : Partitioner :=
  .masterAssigner (WrapPartitioner p)

/-- `partitions.IsPreserved`: unwraps one serialization layer and checks
whether the result is the Preserve partitioner. -/
def IsPreserved (p : Partitioner) : Bool :=
  match UnwrapPartitioner p with
  | .preserve => true
  | _ => false

/-- `partitions.PlanForNumberOf`: one elastic partition per executor,
IDs are the decimal index strings.  `make([]Partition, n)` with the
`for` loop is the map over `0..n-1`. -/
def PlanForNumberOf (numExecutors : Nat) : List Partition :=
  (List.range numExecutors).map fun i =>
    { ID := Nat.repr i, IsElastic := true, AssignmentAffinity := [] }

/-- `masterAssigner.PlanNext`'s per-partition mutation: if the affinity map
is absent or empty a fresh map is allocated, then `"Type" = "master"` is
assigned. -/
def assignToMaster (part : Partition) : Partition :=
  let aff := if part.AssignmentAffinity.length = 0 then [] else part.AssignmentAffinity
  { part with AssignmentAffinity := mapAssign aff "Type" "master" }

/-- `Partitioner.PlanNext` for every variant.  `FiniteKeyPartitioner.PlanNext`
iterates its key set (one non-elastic partition per key, ID = key);
`SerializablePartitioner` delegates by Go struct embedding;
`masterAssigner.PlanNext` delegates then stamps the master affinity. -/
def PlanNext (p : Partitioner) (numExecutors : Nat) : List Partition :=
  match p with
  | .hashKey => PlanForNumberOf numExecutors
  | .finiteKey keySet =>
    keySet.map fun key => { ID := key, IsElastic := false, AssignmentAffinity := [] }
  | .shuffled => PlanForNumberOf numExecutors
  | .preserve => PlanForNumberOf numExecutors
  | .serializable inner => PlanNext inner numExecutors
  | .masterAssigner inner => (PlanNext inner numExecutors).map assignToMaster

/-- FNV-1a 64-bit offset basis. -/
def fnvOffset64 : Nat := 14695981039346656037

/-- FNV-1a 64-bit prime. -/
def fnvPrime64 : Nat := 1099511628211

/-- UTF-8 encoding of one character, as the list of its byte values; Go
strings are byte strings holding the UTF-8 encoding of their text. -/
def utf8Bytes (c : Char) : List Nat :=
  let n := c.toNat
  if n < 0x80 then [n]
  else if n < 0x800 then [0xC0 + n / 0x40, 0x80 + n % 0x40]
  else if n < 0x10000 then
    [0xE0 + n / 0x1000, 0x80 + n / 0x40 % 0x40, 0x80 + n % 0x40]
  else
    [0xF0 + n / 0x40000, 0x80 + n / 0x1000 % 0x40, 0x80 + n / 0x40 % 0x40, 0x80 + n % 0x40]

/-- The bytes of a Go string. -/
def strBytes (s : String) : List Nat := s.data.flatMap utf8Bytes

/-- `fnv1a.HashString64` (segmentio/fasthash): FNV-1a over the string's
bytes with 64-bit wrapping multiplication. -/
def fnv1a64 (s : String) : Nat :=
  (strBytes s).foldl (fun h b => ((h ^^^ b) * fnvPrime64) % 2 ^ 64) fnvOffset64

/-- Outcome of a `DeterminePartition` call: a normal `(id, nil)` return, a
`("", err)` return, or a Go runtime panic (modelled explicitly; inside
the executor a panic is caught by `AbortOnPanic`). -/
inductive DPResult where
  | ok (id : String) : DPResult
  | err (e : GoErr) : DPResult
  | panicked : DPResult
deriving DecidableEq, Repr

/-- `Partitioner.DeterminePartition` for every variant.  `numOutputs` is a
Go `int` (modelled as `Int`; `uint64(numOutputs)` is its value mod `2^64`).
`randVal` is the value `rand.Int()` would return for the Shuffled
partitioner (non-negative).  Division by zero in Go's `%` panics. -/
def DeterminePartition (p : Partitioner) (c : Context) (r : LRow)
    (numOutputs : Int) (randVal : Nat) : DPResult :=
  match p with
  | .hashKey =>
    let d := (numOutputs % (2 ^ 64 : Int)).toNat
    if d = 0 then .panicked
    else .ok (Nat.repr (fnv1a64 r.Key % d))
  | .finiteKey keySet =>
    if keySet.contains r.Key then .ok r.Key else .err ErrNoOutput
  | .shuffled =>
    if numOutputs = 0 then .panicked
    else .ok (Int.repr (Int.tmod (randVal : Int) numOutputs))
  | .preserve => .ok c.partitionID
  | .serializable inner => DeterminePartition inner c r numOutputs randVal
  | .masterAssigner inner => DeterminePartition inner c r numOutputs randVal

/-- Observable calls made by one run of `TaskExecutor.Run` / `Abort`, in
program order: `Output.Close()` calls, the reporter calls, and the send on
the completion channel. -/
inductive Event where
  | outputClose : Event
  | reportFailure (e : GoErr) : Event
  | reportSuccess : Event
  | finishSignal : Event
deriving DecidableEq, Repr

/-- One run's environment: the results the collaborators return, in the
order the executor consults them.  `applyResults` lists, per input batch,
the error `runner.Apply` returns for it (`none` = nil). -/
structure ExecEnv where
  applyResults : List (Option GoErr)
  teardownResult : Option GoErr
  closeResult : Option GoErr
  reportSuccessResult : Option GoErr
deriving DecidableEq, Repr

/-- `TaskExecutor.Abort(err)`: reports the failure (a reporter error is
only logged), then best-effort closes the output. -/
def abortEvents (e : GoErr) : List Event :=
  [.reportFailure e, .outputClose]

/-- The drain loop of `TaskExecutor.Run`: batches are applied in order
until the input channel closes; the first `Apply` error stops the loop. -/
def firstApplyError (results : List (Option GoErr)) : Option GoErr :=
  match results with
  | [] => none
  | some e :: _ => some e
  | none :: rest => firstApplyError rest

/-- `TaskExecutor.Run`, translated statement by statement.  Note the
`Output.Close()` error branch in the source calls `Abort` but does NOT
`return`: control falls through to `ReportSuccess` and, when that call
succeeds, to the completion-channel send. -/
def Run (env : ExecEnv) : List Event :=
  match firstApplyError env.applyResults with
  | some e => abortEvents e
  | none =>
    match env.teardownResult with
    | some e => abortEvents (.wrap "teardown stage" e)
    | none =>
      .outputClose ::
        ((match env.closeResult with
          | some e => abortEvents (.wrap "close output" e)
          | none => []) ++
         .reportSuccess ::
           (match env.reportSuccessResult with
            | some e => abortEvents (.wrap "report successful task" e)
            | none => [.finishSignal]))

/-- Number of `ReportFailure` calls in a trace. -/
def countFailures (tr : List Event) : Nat :=
  tr.countP fun ev => match ev with | .reportFailure _ => true | _ => false

/-- `WaitForFinish` unblocks exactly when the completion channel was sent
to, i.e. when the run's trace contains `finishSignal`. -/
def finishSignalled (tr : List Event) : Bool :=
  tr.contains .finishSignal

mutual
/-- A dynamic value held in a row (`interface{}` as restricted by the wire
format of §6: tagged scalar / array / map). -/
inductive MVal where
  | vnull : MVal
  | vbool (b : Bool) : MVal
  | vint (i : Int) : MVal
  | vstr (s : String) : MVal
  | varr (elems : MArr) : MVal
  | vmap (entries : MMap) : MVal

/-- A dynamic array of values. -/
inductive MArr where
  | nil : MArr
  | cons (v : MVal) (rest : MArr) : MArr

/-- A string-keyed map of dynamic values (association list; Go maps have
unique keys). -/
inductive MMap where
  | nil : MMap
  | cons (k : String) (v : MVal) (rest : MMap) : MMap
end

/-- `lrdd.Row`: `type Row map[string]interface{}`. -/
abbrev Row := MMap

/-- Length of a dynamic array. -/
def MArr.length : MArr → Nat
  | .nil => 0
  | .cons _ rest => 1 + rest.length

/-- Number of entries of a map value. -/
def MMap.length : MMap → Nat
  | .nil => 0
  | .cons _ _ rest => 1 + rest.length

/-- The keys of a map value, in entry order. -/
def MMap.keys : MMap → List String
  | .nil => []
  | .cons k _ rest => k :: rest.keys

/-- Go map read `m[k]` (`none` = key absent).  Entry keys are unique in
any map produced by Go, so first match suffices. -/
def MMap.get : MMap → String → Option MVal
  | .nil, _ => none
  | .cons k0 v rest, k => if k0 = k then some v else rest.get k

/-- Go map assignment `m[k] = v` on a dynamic map: overwrite in place when
the key exists, append otherwise. -/
def MMap.assign : MMap → String → MVal → MMap
  | .nil, k, v => .cons k v .nil
  | .cons k0 v0 rest, k, v =>
    if k0 = k then .cons k0 v rest else .cons k0 v0 (rest.assign k v)

/-- `for k := range src { dst[k] = src[k] }`: assign every entry of `src`
into `dst`, in entry order. -/
def MMap.assignAll (dst : MMap) : MMap → MMap
  | .nil => dst
  | .cons k v rest => MMap.assignAll (dst.assign k v) rest

/-- `Row.Merge`: allocates a fresh map, copies the receiver's entries,
then the argument's entries (overwriting on key collision), and returns
it; neither operand is touched. -/
def Row.Merge (r a : Row) : Row :=
  MMap.assignAll (MMap.assignAll MMap.nil r) a

/-- Unsigned base-128 varint: low 7 bits first, high bit of each byte
flags a continuation.  Length fields and character codepoints of the
wire format are written this way.
Modelled from the spec: the binary codec itself lives in the external
msgpack dependency, not in `src/`; this codec follows §6's description
(self-describing tagged values, length-prefixed strings and maps). -/
def encNat (n : Nat) : List Nat :=
  if n < 128 then [n] else (n % 128 + 128) :: encNat (n / 128)
decreasing_by exact Nat.div_lt_self (by omega) (by omega)

/-- Varint decoder; returns the value and the remaining bytes. -/
def decNat : List Nat → Option (Nat × List Nat)
  | [] => none
  | b :: rest =>
    if b < 128 then some (b, rest)
    else
      match decNat rest with
      | some (m, r) => some (b - 128 + 128 * m, r)
      | none => none

/-- Wire form of a string: character count, then each character's
codepoint. -/
def encChars : List Char → List Nat
  | [] => []
  | c :: cs => encNat c.toNat ++ encChars cs

/-- `encChars` preceded by the character count. -/
def encStr (s : String) : List Nat :=
  encNat s.data.length ++ encChars s.data

/-- Reads `count` characters. -/
def decChars : Nat → List Nat → Option (List Char × List Nat)
  | 0, bs => some ([], bs)
  | count + 1, bs =>
    match decNat bs with
    | some (cp, r) =>
      match decChars count r with
      | some (cs, r2) => some (Char.ofNat cp :: cs, r2)
      | none => none
    | none => none

/-- String decoder: count, then that many characters. -/
def decStr (bs : List Nat) : Option (String × List Nat) :=
  match decNat bs with
  | some (count, r) =>
    match decChars count r with
    | some (cs, r2) => some (String.mk cs, r2)
    | none => none
  | none => none

mutual
/-- Wire form of a value: one tag byte, then the payload.
Modelled from the spec: §6's self-describing map codec. -/
def encVal : MVal → List Nat
  | .vnull => [0]
  | .vbool b => [1, if b then 1 else 0]
  | .vint i => if i < 0 then 2 :: encNat (-i).toNat else 3 :: encNat i.toNat
  | .vstr s => 4 :: encStr s
  | .varr a => 5 :: (encNat a.length ++ encArr a)
  | .vmap m => 6 :: (encNat m.length ++ encMap m)

/-- Concatenated wire forms of an array's elements. -/
def encArr : MArr → List Nat
  | .nil => []
  | .cons v rest => encVal v ++ encArr rest

/-- Concatenated wire forms of a map's entries (length-prefixed key, then
value). -/
def encMap : MMap → List Nat
  | .nil => []
  | .cons k v rest => encStr k ++ encVal v ++ encMap rest
end

mutual
/-- Value decoder.  `fuel` bounds the nesting depth (each recursion into
an array or map element burns one unit); `decode` passes the byte count,
which dominates the depth of any encoded value. -/
def decVal : Nat → List Nat → Option (MVal × List Nat)
  | 0, _ => none
  | _ + 1, [] => none
  | fuel + 1, t :: rest =>
    if t = 0 then some (.vnull, rest)
    else if t = 1 then
      match rest with
      | b :: r2 => some (.vbool (b == 1), r2)
      | [] => none
    else if t = 2 then
      match decNat rest with
      | some (n, r) => some (.vint (-(n : Int)), r)
      | none => none
    else if t = 3 then
      match decNat rest with
      | some (n, r) => some (.vint (n : Int), r)
      | none => none
    else if t = 4 then
      match decStr rest with
      | some (s, r) => some (.vstr s, r)
      | none => none
    else if t = 5 then
      match decNat rest with
      | some (count, r) =>
        match decArr fuel count r with
        | some (a, r2) => some (.varr a, r2)
        | none => none
      | none => none
    else if t = 6 then
      match decNat rest with
      | some (count, r) =>
        match decMap fuel count r with
        | some (m, r2) => some (.vmap m, r2)
        | none => none
      | none => none
    else none
termination_by fuel _ => (fuel, 0)

/-- Reads `count` consecutive values. -/
def decArr : Nat → Nat → List Nat → Option (MArr × List Nat)
  | _, 0, bs => some (.nil, bs)
  | fuel, count + 1, bs =>
    match decVal fuel bs with
    | some (v, r) =>
      match decArr fuel count r with
      | some (a, r2) => some (.cons v a, r2)
      | none => none
    | none => none
termination_by fuel count _ => (fuel, count + 1)

/-- Reads `count` consecutive key/value entries. -/
def decMap : Nat → Nat → List Nat → Option (MMap × List Nat)
  | _, 0, bs => some (.nil, bs)
  | fuel, count + 1, bs =>
    match decStr bs with
    | some (k, r) =>
      match decVal fuel r with
      | some (v, r2) =>
        match decMap fuel count r2 with
        | some (m, r3) => some (.cons k v m, r3)
        | none => none
      | none => none
    | none => none
termination_by fuel count _ => (fuel, count + 1)
end

/-- `Row.Marshal`: encodes the row as a map value.
Modelled from the spec: encoding is infallible from the producer side. -/
def Row.Marshal (r : Row) : List Nat :=
  encVal (.vmap r)

/-- `Row.Unmarshal`: decodes the bytes and requires a map value consuming
the whole input; any other shape is a decode error (`none`).
Modelled from the spec: decoding returns a typed error to the caller. -/
def Row.Unmarshal (bs : List Nat) : Option Row :=
  match decVal bs.length bs with
  | some (.vmap m, []) => some m
  | _ => none

mutual
/-- Nesting depth of a value: how much decoder fuel is needed. -/
def vdepth : MVal → Nat
  | .varr a => adepth a + 1
  | .vmap m => mdepth m + 1
  | _ => 1

/-- Largest element depth of an array. -/
def adepth : MArr → Nat
  | .nil => 0
  | .cons v rest => max (vdepth v) (adepth rest)

/-- Largest value depth of a map. -/
def mdepth : MMap → Nat
  | .nil => 0
  | .cons _ v rest => max (vdepth v) (mdepth rest)
end

/-- The row produced by converting one value.
Modelled from the spec: the row constructors `lrdd.Value` and
`lrdd.KeyValue` are not under `src/`; per §3 a converted row has a key
(possibly empty) and holds the value under a default field name. -/
structure ConvRow where
  Key : String
  Values : MMap

/-- The default field name a converted value is stored under.
Modelled from the spec: §3 names it only "a default field name". -/
def defaultFieldName : String := "value"

/-- `lrdd.Value(v)`: row with empty key, value under the default field
name.  Modelled from the spec (§3 rule 2/4). -/
def Value (v : MVal) : ConvRow :=
  { Key := "", Values := .cons defaultFieldName v .nil }

/-- `lrdd.KeyValue(k, v)`: row with key `k`, value under the default
field name.  Modelled from the spec (§3 rule 3). -/
def KeyValue (k : String) (v : MVal) : ConvRow :=
  { Key := k, Values := .cons defaultFieldName v .nil }

/-- The shapes `lrdd.From` distinguishes by reflection: a `[]*Row`, any
other sequence, a keyed mapping, or a plain value.  In the mapping case
the branch taken per entry is decided by `iter.Value().Kind()`, and a
`reflect.MapIter.Value()` has the map's *static* element type: a
`map[string]interface{}` yields `reflect.Interface` for every entry
whatever the dynamic value is, so such entries never take the
`Array`/`Slice` branch and `v.Interface()` (the dynamic value, possibly
itself a sequence) is stored whole; only a map whose declared element
type is a slice or array kind takes the per-element branch.  The three
mapping constructors model these static element kinds; entry iteration
order is abstracted as the list order (Go map iteration order is
unspecified). -/
inductive GoInput where
  | rowSlice (rows : List ConvRow) : GoInput
  | slice (elems : List MVal) : GoInput
  | ifaceMapping (entries : List (String × MVal)) : GoInput
  | seqMapping (entries : List (String × List MVal)) : GoInput
  | scalarMapping (entries : List (String × MVal)) : GoInput
  | scalar (v : MVal) : GoInput

/-- `lrdd.From`: a `[]*Row` is returned as-is; another sequence yields one
`Value` row per element; a keyed mapping yields one `KeyValue` row per
entry — except that entries of a map statically typed with a slice or
array element kind yield one row per element, all sharing the entry key
(a `map[string]interface{}` entry has kind `reflect.Interface` and
always yields a single row holding the dynamic value whole); anything
else yields one `Value` row. -/
def From : GoInput → List ConvRow
  | .rowSlice rows => rows
  | .slice elems => elems.map Value
  | .ifaceMapping entries => entries.map fun e => KeyValue e.1 e.2
  | .seqMapping entries =>
    entries.flatMap fun e => e.2.map fun x => KeyValue e.1 x
  | .scalarMapping entries => entries.map fun e => KeyValue e.1 e.2
  | .scalar v => [Value v]

/-- `assignToMaster` is exactly a Go map assignment of `"Type" = "master"`
on the partition's affinity map: the fresh-allocation branch for an empty
map produces the same entries. -/
theorem assignToMaster_eq (part : Partition) :
    assignToMaster part =
      { part with AssignmentAffinity := mapAssign part.AssignmentAffinity "Type" "master" } := by
  unfold assignToMaster
  cases h : part.AssignmentAffinity with
  | nil => simp [h, mapAssign]
  | cons hd tl => simp [h]

/-- C1: the claim says a failing `Output.Close()` aborts the task, with
`ReportSuccess` not called afterwards and the failure surfacing exactly
once via `ReportFailure`.  The source's close-error branch lacks a
`return`, so after `Abort` the run falls through: `ReportSuccess` is
called (and on a clean report the completion channel is even signalled),
and when that report also fails, `ReportFailure` fires a second time. -/
theorem taskExecutor_closeError_fallthrough :
    Run { applyResults := [], teardownResult := none,
          closeResult := some (.mk "E"), reportSuccessResult := none } =
      [.outputClose, .reportFailure (.wrap "close output" (.mk "E")), .outputClose,
       .reportSuccess, .finishSignal] ∧
    countFailures
      (Run { applyResults := [], teardownResult := none,
             closeResult := some (.mk "E"), reportSuccessResult := some (.mk "F") }) = 2 := by
  constructor
  · rfl
  · rfl

/-- C2 counterexample: at `numOutputs = 0`, the HashKey and Shuffled
partitioners panic on `% 0` (they do not return an error value), and the
Preserve partitioner succeeds, returning the context's partition ID. -/
theorem zeroOutputs_no_error_counterexample :
    DeterminePartition .hashKey { partitionID := "7" } { Key := "k" } 0 0 = .panicked ∧
    DeterminePartition .shuffled { partitionID := "7" } { Key := "k" } 0 0 = .panicked ∧
    DeterminePartition .preserve { partitionID := "7" } { Key := "k" } 0 0 = .ok "7" := by
  refine ⟨?_, ?_, ?_⟩ <;> rfl

/-- C2 amended: with `numOutputs = 0`, HashKey and Shuffled crash with a
Go runtime division-by-zero panic (contained only later, by the
executor's recovery), and Preserve returns the context's own partition ID
with no error; no non-Finite partitioner returns an error value. -/
theorem zeroOutputs_panics_except_preserve (c : Context) (r : LRow) (rv : Nat) :
    DeterminePartition .hashKey c r 0 rv = .panicked ∧
    DeterminePartition .shuffled c r 0 rv = .panicked ∧
    DeterminePartition .preserve c r 0 rv = .ok c.partitionID := by
  refine ⟨?_, ?_, ?_⟩ <;> simp [DeterminePartition]

/-- C5: the MasterAffinity wrapper delegates `DeterminePartition`
unchanged, and its `PlanNext` output is the wrapped plan with
`AssignmentAffinity["Type"] = "master"` assigned on every partition
(the map being created when absent), all other fields unchanged. -/
theorem masterAffinity_wrapper_spec (p : Partitioner) (n : Nat) (c : Context)
    (r : LRow) (no : Int) (rv : Nat) :
    DeterminePartition (WithAssignmentToMaster p) c r no rv =
      DeterminePartition p c r no rv ∧
    PlanNext (WithAssignmentToMaster p) n =
      (PlanNext p n).map
        (fun part =>
          { part with AssignmentAffinity := mapAssign part.AssignmentAffinity "Type" "master" }) := by
  constructor
  · rfl
  · show (PlanNext p n).map assignToMaster = _
    rw [funext assignToMaster_eq]

/-- C6 counterexample: `IsPreserved` only unwraps the serialization
wrapper, so the MasterAffinity wrapper around Preserve is not
recognised. -/
theorem isPreserved_master_wrapped_preserve_counterexample :
    IsPreserved (WithAssignmentToMaster NewPreservePartitioner) = false := by
  rfl

/-- C6 amended: `IsPreserved(p)` is true exactly when `p` is the Preserve
partitioner or the serialization wrapper applied directly to it; it is
false for the MasterAffinity wrapper (even when it wraps Preserve) and
for every other variant. -/
theorem isPreserved_characterization (p : Partitioner) :
    IsPreserved p = true ↔ p = .preserve ∨ p = .serializable .preserve := by
  cases p with
  | serializable inner => cases inner <;> simp [IsPreserved, UnwrapPartitioner]
  | _ => simp [IsPreserved, UnwrapPartitioner]

/-- C8: the claim says `From` applied to the keyed mapping
`{"a": [1,2], "b": 3}` yields three rows `(a,1)`, `(a,2)`, `(b,3)`, the
sequence entry split per element.  That mapping is heterogeneous, so in
Go it is a `map[string]interface{}`, and `iter.Value().Kind()` is then
`reflect.Interface` for every entry — the `Array`/`Slice` test never
fires.  The code therefore emits exactly two rows, the `"a"` entry
keeping its sequence whole: `(key="a", val=[1,2])` and `(key="b",
val=3)`.  (The per-element split runs only for a map statically typed
with a slice element, as the last conjunct shows.) -/
theorem lrdd_from_mixed_mapping_two_rows :
    From (.ifaceMapping
        [("a", .varr (.cons (.vint 1) (.cons (.vint 2) .nil))), ("b", .vint 3)]) =
      [KeyValue "a" (.varr (.cons (.vint 1) (.cons (.vint 2) .nil))),
       KeyValue "b" (.vint 3)] ∧
    (From (.ifaceMapping
        [("a", .varr (.cons (.vint 1) (.cons (.vint 2) .nil))), ("b", .vint 3)])).length =
      2 ∧
    From (.seqMapping [("a", [.vint 1, .vint 2])]) =
      [KeyValue "a" (.vint 1), KeyValue "a" (.vint 2)] := by
  refine ⟨?_, ?_, ?_⟩ <;> rfl

/-- C9: the claim says the completion channel is signalled only on the
success branch, so an aborting task leaves `WaitForFinish` blocked.  In
the source, a task aborted by an `Output.Close()` error falls through
(missing `return`) and still sends the completion signal once the
subsequent `ReportSuccess` call succeeds — an aborted run that unblocks
`WaitForFinish`.  (A clean run signals; an `Apply`-failure run does
not.) -/
theorem taskExecutor_finish_signalled_after_abort :
    finishSignalled
      (Run { applyResults := [], teardownResult := none,
             closeResult := some (.mk "E"), reportSuccessResult := none }) = true ∧
    countFailures
      (Run { applyResults := [], teardownResult := none,
             closeResult := some (.mk "E"), reportSuccessResult := none }) = 1 ∧
    finishSignalled
      (Run { applyResults := [some (.mk "A")], teardownResult := none,
             closeResult := none, reportSuccessResult := none }) = false ∧
    finishSignalled
      (Run { applyResults := [none, none], teardownResult := none,
             closeResult := none, reportSuccessResult := none }) = true := by
  refine ⟨?_, ?_, ?_, ?_⟩ <;> rfl

/-- Membership in the key set built by `dedupKeys` is membership in the
original key list. -/
theorem mem_dedupKeys_aux (keys acc : List String) (k : String) :
    k ∈ keys.foldl (fun a x => if a.contains x then a else a ++ [x]) acc ↔
      k ∈ acc ∨ k ∈ keys := by
  induction keys generalizing acc with
  | nil => simp
  | cons x keys ih =>
    rw [List.foldl_cons, ih]
    by_cases hx : acc.contains x
    · have hmem : x ∈ acc := by simpa using hx
      simp only [hx, if_pos]
      constructor
      · rintro (h | h)
        · exact Or.inl h
        · exact Or.inr (List.mem_cons_of_mem _ h)
      · rintro (h | h)
        · exact Or.inl h
        · rcases List.mem_cons.mp h with rfl | h
          · exact Or.inl hmem
          · exact Or.inr h
    · simp only [hx, if_neg, Bool.false_eq_true, not_false_iff, List.mem_append,
        List.mem_singleton, List.mem_cons]
      tauto

/-- `dedupKeys` has the same members as its input. -/
theorem mem_dedupKeys (keys : List String) (k : String) :
    k ∈ dedupKeys keys ↔ k ∈ keys := by
  unfold dedupKeys
  rw [mem_dedupKeys_aux]
  simp

/-- `dedupKeys` never repeats a key. -/
theorem nodup_dedupKeys_aux (keys acc : List String) (h : acc.Nodup) :
    (keys.foldl (fun a x => if a.contains x then a else a ++ [x]) acc).Nodup := by
  induction keys generalizing acc with
  | nil => simpa using h
  | cons x keys ih =>
    rw [List.foldl_cons]
    by_cases hx : acc.contains x = true
    · rw [if_pos hx]
      exact ih acc h
    · rw [if_neg hx]
      have hnm : x ∉ acc := by simpa using hx
      refine ih (acc ++ [x]) ?_
      simp [List.nodup_append, h, hnm]

/-- `dedupKeys` produces a duplicate-free list. -/
theorem nodup_dedupKeys (keys : List String) : (dedupKeys keys).Nodup :=
  nodup_dedupKeys_aux keys [] List.nodup_nil

/-- C3: the HashKey partitioner plans `n` elastic partitions with IDs
`"0"` through `"n-1"` in that order, and for `0 < numOutputs` (within the
Go `int` range) `DeterminePartition` returns, with no error, the decimal
rendering of the FNV-1a 64-bit hash of the row's key modulo
`numOutputs`. -/
theorem hashKey_partitioner_spec (n : Nat) (c : Context) (r : LRow)
    (m : Int) (rv : Nat) (hm : 0 < m) (hm63 : m < 2 ^ 63) :
    PlanNext .hashKey n =
      (List.range n).map
        (fun i => { ID := Nat.repr i, IsElastic := true, AssignmentAffinity := [] }) ∧
    (PlanNext .hashKey n).length = n ∧
    DeterminePartition .hashKey c r m rv = .ok (Nat.repr (fnv1a64 r.Key % m.toNat)) := by
  refine ⟨rfl, by simp [PlanNext, PlanForNumberOf], ?_⟩
  have h64 : m % (2 ^ 64 : Int) = m :=
    Int.emod_eq_of_lt (le_of_lt hm) (lt_trans hm63 (by norm_num))
  have hne : (m % (2 ^ 64 : Int)).toNat ≠ 0 := by rw [h64]; omega
  show (if (m % (2 ^ 64 : Int)).toNat = 0 then DPResult.panicked
        else .ok (Nat.repr (fnv1a64 r.Key % (m % (2 ^ 64 : Int)).toNat))) =
      .ok (Nat.repr (fnv1a64 r.Key % m.toNat))
  rw [if_neg hne, h64]

/-- C3 witness: instantiated at `n = 3`, key `"a"`, `numOutputs = 4`. -/
theorem hashKey_partitioner_spec_witness :
    (0 : Int) < 4 ∧ (4 : Int) < 2 ^ 63 ∧
    (PlanNext .hashKey 3 =
      (List.range 3).map
        (fun i => { ID := Nat.repr i, IsElastic := true, AssignmentAffinity := [] }) ∧
    (PlanNext .hashKey 3).length = 3 ∧
    DeterminePartition .hashKey { partitionID := "0" } { Key := "a" } 4 0 =
      .ok (Nat.repr (fnv1a64 "a" % (4 : Int).toNat))) :=
  ⟨by norm_num, by norm_num,
    hashKey_partitioner_spec 3 { partitionID := "0" } { Key := "a" } 4 0
      (by norm_num) (by norm_num)⟩

/-- C4: the FiniteKey partitioner built from key list `K` plans one
non-elastic partition per distinct key (partition ID = key, every ID a
member of `K`, no duplicates), ignoring `numExecutors`; its
`DeterminePartition` returns the row key without error exactly when the
key is in `K`, and the NoOutput error exactly otherwise. -/
theorem finiteKey_partitioner_spec (keys : List String) (n m : Nat)
    (c : Context) (r : LRow) (no : Int) (rv : Nat) :
    ((PlanNext (NewFiniteKeyPartitioner keys) n).map Partition.ID).Nodup ∧
    (∀ k, k ∈ (PlanNext (NewFiniteKeyPartitioner keys) n).map Partition.ID ↔ k ∈ keys) ∧
    (∀ part ∈ PlanNext (NewFiniteKeyPartitioner keys) n,
      part.IsElastic = false ∧ part.AssignmentAffinity = []) ∧
    PlanNext (NewFiniteKeyPartitioner keys) n = PlanNext (NewFiniteKeyPartitioner keys) m ∧
    (DeterminePartition (NewFiniteKeyPartitioner keys) c r no rv = .ok r.Key ↔
      r.Key ∈ keys) ∧
    (DeterminePartition (NewFiniteKeyPartitioner keys) c r no rv = .err ErrNoOutput ↔
      r.Key ∉ keys) := by
  have hids : ∀ j : Nat,
      (PlanNext (NewFiniteKeyPartitioner keys) j).map Partition.ID = dedupKeys keys := by
    intro j
    simp [PlanNext, NewFiniteKeyPartitioner, Function.comp_def]
  refine ⟨?_, ?_, ?_, ?_, ?_, ?_⟩
  · rw [hids]; exact nodup_dedupKeys keys
  · intro k; rw [hids]; exact mem_dedupKeys keys k
  · intro part hp
    simp only [PlanNext, NewFiniteKeyPartitioner, List.mem_map] at hp
    obtain ⟨key, _, rfl⟩ := hp
    exact ⟨rfl, rfl⟩
  · simp [PlanNext, NewFiniteKeyPartitioner]
  · by_cases hk : r.Key ∈ keys
    · simp [DeterminePartition, NewFiniteKeyPartitioner, mem_dedupKeys, hk]
    · simp [DeterminePartition, NewFiniteKeyPartitioner, mem_dedupKeys, hk]
  · by_cases hk : r.Key ∈ keys
    · simp [DeterminePartition, NewFiniteKeyPartitioner, mem_dedupKeys, hk]
    · simp [DeterminePartition, NewFiniteKeyPartitioner, mem_dedupKeys, hk]

/-- Reading back a Go map assignment: the assigned key now holds the new
value, every other key is untouched. -/
theorem MMap.get_assign : ∀ (m : MMap) (k : String) (v : MVal) (k2 : String),
    (m.assign k v).get k2 = if k = k2 then some v else m.get k2
  | .nil, k, v, k2 => by simp [MMap.assign, MMap.get]
  | .cons k0 v0 rest, k, v, k2 => by
    have ih := MMap.get_assign rest k v k2
    simp only [MMap.assign]
    split
    case isTrue h0 =>
      subst h0
      simp only [MMap.get]
      by_cases h2 : k0 = k2
      · simp [h2]
      · simp [h2]
    case isFalse h0 =>
      simp only [MMap.get, ih]
      by_cases h2 : k0 = k2
      · subst h2
        have hk : ¬k = k0 := fun hh => h0 hh.symm
        simp [hk]
      · simp [h2]

/-- A key outside a map's key list reads as absent. -/
theorem MMap.get_eq_none_of_not_mem_keys : ∀ (m : MMap) (k : String),
    k ∉ m.keys → m.get k = none
  | .nil, _, _ => rfl
  | .cons k0 v0 rest, k, h => by
    simp only [MMap.keys, List.mem_cons, not_or] at h
    rw [MMap.get, if_neg (fun (hh : k0 = k) => h.1 (Eq.symm hh))]
    exact MMap.get_eq_none_of_not_mem_keys rest k h.2

/-- Copying a whole map into `dst` with Go assignments: a key reads from
the copied map when it has it, from `dst` otherwise (the copied map's
keys being unique, as a Go map's are). -/
theorem MMap.get_assignAll : ∀ (src : MMap) (dst : MMap) (k : String),
    src.keys.Nodup → (MMap.assignAll dst src).get k = (src.get k).or (dst.get k)
  | .nil, dst, k, _ => by simp [MMap.assignAll, MMap.get]
  | .cons k0 v0 rest, dst, k, h => by
    simp only [MMap.keys, List.nodup_cons] at h
    simp only [MMap.assignAll, MMap.get]
    rw [MMap.get_assignAll rest _ k h.2, MMap.get_assign]
    by_cases h0 : k0 = k
    · subst h0
      rw [if_pos rfl, if_pos rfl,
        MMap.get_eq_none_of_not_mem_keys rest k0 h.1]
      simp
    · rw [if_neg h0, if_neg h0]

/-- C10: `Row.Merge` builds a fresh map whose lookups are: the argument's
value for a key the argument has, otherwise the receiver's value,
otherwise absent — so its key set is the union, with the argument
winning on collisions.  (The Go receiver and argument maps have unique
keys.)  Being a pure function of its operands, the model also reflects
that neither operand is modified. -/
theorem row_merge_spec (r a : Row) (k : String)
    (hr : (MMap.keys r).Nodup) (ha : (MMap.keys a).Nodup) :
    MMap.get (Row.Merge r a) k = (MMap.get a k).or (MMap.get r k) := by
  unfold Row.Merge
  rw [MMap.get_assignAll a _ k ha, MMap.get_assignAll r _ k hr]
  cases MMap.get a k <;> cases MMap.get r k <;> rfl

/-- C10 witness: merging `{x:1, y:2}` with `{x:9, z:3}` reads `x` as the
argument's `9`. -/
theorem row_merge_spec_witness :
    (MMap.keys (.cons "x" (.vint 1) (.cons "y" (.vint 2) .nil))).Nodup ∧
    (MMap.keys (.cons "x" (.vint 9) (.cons "z" (.vint 3) .nil))).Nodup ∧
    MMap.get
        (Row.Merge (.cons "x" (.vint 1) (.cons "y" (.vint 2) .nil))
          (.cons "x" (.vint 9) (.cons "z" (.vint 3) .nil))) "x" =
      (MMap.get (.cons "x" (.vint 9) (.cons "z" (.vint 3) .nil)) "x").or
        (MMap.get (.cons "x" (.vint 1) (.cons "y" (.vint 2) .nil)) "x") :=
  ⟨by decide, by decide,
    row_merge_spec (.cons "x" (.vint 1) (.cons "y" (.vint 2) .nil))
      (.cons "x" (.vint 9) (.cons "z" (.vint 3) .nil)) "x" (by decide) (by decide)⟩

/-- Varint round trip: decoding an encoded number consumes exactly its
bytes. -/
theorem decNat_encNat : ∀ (n : Nat) (rest : List Nat),
    decNat (encNat n ++ rest) = some (n, rest) := by
  intro n
  induction n using Nat.strong_induction_on with
  | _ n ih =>
    intro rest
    by_cases h : n < 128
    · rw [encNat, if_pos h]
      simp [decNat, h]
    · rw [encNat, if_neg h]
      have h2 : ¬(n % 128 + 128 < 128) := by omega
      rw [List.cons_append]
      simp only [decNat, if_neg h2,
        ih (n / 128) (Nat.div_lt_self (by omega) (by omega)) rest]
      have heq : n % 128 + 128 - 128 + 128 * (n / 128) = n := by omega
      rw [heq]

/-- Character-sequence round trip. -/
theorem decChars_encChars : ∀ (cs : List Char) (rest : List Nat),
    decChars cs.length (encChars cs ++ rest) = some (cs, rest)
  | [], rest => by simp [encChars, decChars]
  | c :: cs, rest => by
    simp only [encChars, List.length_cons, List.append_assoc, decChars,
      decNat_encNat, decChars_encChars cs rest, Char.ofNat_toNat]

/-- String round trip. -/
theorem decStr_encStr (s : String) (rest : List Nat) :
    decStr (encStr s ++ rest) = some (s, rest) := by
  rw [encStr, List.append_assoc]
  simp only [decStr, decNat_encNat, decChars_encChars]

/-- An encoded number takes at least one byte. -/
theorem one_le_encNat_length (n : Nat) : 1 ≤ (encNat n).length := by
  rw [encNat]
  by_cases h : n < 128 <;> simp [h]

/-- Every value has depth at least one. -/
theorem one_le_vdepth (v : MVal) : 1 ≤ vdepth v := by
  cases v <;> simp [vdepth]

mutual
/-- A value's nesting depth is dominated by its encoded length. -/
theorem vdepth_le_encVal_length : ∀ (v : MVal), vdepth v ≤ (encVal v).length
  | .vnull => by simp [vdepth, encVal]
  | .vbool b => by simp [vdepth, encVal]
  | .vint i => by
    by_cases h : i < 0 <;> simp [vdepth, encVal, h]
  | .vstr s => by simp [vdepth, encVal]
  | .varr a => by
    have := adepth_le_encArr_length a
    simp only [vdepth, encVal, List.length_cons, List.length_append]
    omega
  | .vmap m => by
    have := mdepth_le_encMap_length m
    simp only [vdepth, encVal, List.length_cons, List.length_append]
    omega

/-- An array's depth is dominated by its encoded length. -/
theorem adepth_le_encArr_length : ∀ (a : MArr), adepth a ≤ (encArr a).length
  | .nil => by simp [adepth, encArr]
  | .cons v rest => by
    have h1 := vdepth_le_encVal_length v
    have h2 := adepth_le_encArr_length rest
    simp only [adepth, encArr, List.length_append]
    omega

/-- A map's depth is dominated by its encoded length. -/
theorem mdepth_le_encMap_length : ∀ (m : MMap), mdepth m ≤ (encMap m).length
  | .nil => by simp [mdepth, encMap]
  | .cons k v rest => by
    have h1 := vdepth_le_encVal_length v
    have h2 := mdepth_le_encMap_length rest
    simp only [mdepth, encMap, List.length_append]
    omega
end

mutual
/-- Value round trip, for any fuel at least the value's depth. -/
theorem decVal_encVal : ∀ (v : MVal) (fuel : Nat) (rest : List Nat),
    vdepth v ≤ fuel → decVal fuel (encVal v ++ rest) = some (v, rest)
  | .vnull, fuel, rest, h => by
    cases fuel with
    | zero => simp [vdepth] at h
    | succ f =>
      simp only [encVal, List.cons_append]
      rw [decVal.eq_def]
      simp
  | .vbool b, fuel, rest, h => by
    cases fuel with
    | zero => simp [vdepth] at h
    | succ f =>
      simp only [encVal, List.cons_append]
      rw [decVal.eq_def]
      cases b <;> simp
  | .vint i, fuel, rest, h => by
    cases fuel with
    | zero => simp [vdepth] at h
    | succ f =>
      by_cases hi : i < 0
      · simp only [encVal, if_pos hi, List.cons_append]
        rw [decVal.eq_def]
        simp [decNat_encNat]
        omega
      · simp only [encVal, if_neg hi, List.cons_append]
        rw [decVal.eq_def]
        simp [decNat_encNat]
        omega
  | .vstr s, fuel, rest, h => by
    cases fuel with
    | zero => simp [vdepth] at h
    | succ f =>
      simp only [encVal, List.cons_append]
      rw [decVal.eq_def]
      simp [decStr_encStr]
  | .varr a, fuel, rest, h => by
    cases fuel with
    | zero => simp [vdepth] at h
    | succ f =>
      have ha : adepth a ≤ f := by simp [vdepth] at h; omega
      simp only [encVal, List.cons_append, List.append_assoc]
      rw [decVal.eq_def]
      simp [decNat_encNat, decArr_encArr a f rest ha]
  | .vmap m, fuel, rest, h => by
    cases fuel with
    | zero => simp [vdepth] at h
    | succ f =>
      have hm : mdepth m ≤ f := by simp [vdepth] at h; omega
      simp only [encVal, List.cons_append, List.append_assoc]
      rw [decVal.eq_def]
      simp [decNat_encNat, decMap_encMap m f rest hm]

/-- Array round trip: reading back an array's declared element count. -/
theorem decArr_encArr : ∀ (a : MArr) (fuel : Nat) (rest : List Nat),
    adepth a ≤ fuel → decArr fuel a.length (encArr a ++ rest) = some (a, rest)
  | .nil, fuel, rest, _ => by
    rw [show MArr.length .nil = 0 from rfl, decArr.eq_def]
    simp [encArr]
  | .cons v vs, fuel, rest, h => by
    have h1 : vdepth v ≤ fuel := by simp [adepth] at h; omega
    have h2 : adepth vs ≤ fuel := by simp [adepth] at h; omega
    rw [show MArr.length (.cons v vs) = vs.length + 1 by
      simp [MArr.length, Nat.add_comm]]
    simp only [encArr, List.append_assoc]
    rw [decArr.eq_def]
    simp [decVal_encVal v fuel _ h1, decArr_encArr vs fuel rest h2]

/-- Map round trip: reading back a map's declared entry count. -/
theorem decMap_encMap : ∀ (m : MMap) (fuel : Nat) (rest : List Nat),
    mdepth m ≤ fuel → decMap fuel m.length (encMap m ++ rest) = some (m, rest)
  | .nil, fuel, rest, _ => by
    rw [show MMap.length .nil = 0 from rfl, decMap.eq_def]
    simp [encMap]
  | .cons k v vs, fuel, rest, h => by
    have h1 : vdepth v ≤ fuel := by simp [mdepth] at h; omega
    have h2 : mdepth vs ≤ fuel := by simp [mdepth] at h; omega
    rw [show MMap.length (.cons k v vs) = vs.length + 1 by
      simp [MMap.length, Nat.add_comm]]
    simp only [encMap, List.append_assoc]
    rw [decMap.eq_def]
    simp [decStr_encStr, decVal_encVal v fuel _ h1, decMap_encMap vs fuel rest h2]
end

/-- C7: decoding the binary encoding of any row yields the row back
(`decode(encode(r)) == r`). -/
theorem row_marshal_unmarshal_roundtrip (r : Row) :
    Row.Unmarshal (Row.Marshal r) = some r := by
  unfold Row.Marshal Row.Unmarshal
  have hd : vdepth (.vmap r) ≤ (encVal (.vmap r)).length :=
    vdepth_le_encVal_length (.vmap r)
  have hrt := decVal_encVal (.vmap r) (encVal (.vmap r)).length [] hd
  rw [List.append_nil] at hrt
  rw [hrt]

end Lrmr
